import Mathlib

/-!
Verification of the replacement-policy core of the RLrepartitioner repository.

The definitions below are a shallow embedding of the C++ sources:
  * `src/replacement/partition/partition.cc` / `partition.h`
    (class `partition`: `initialize_replacement`, `find_victim`,
    `replacement_cache_fill`, `update_replacement_state`);
  * `src/replacement/random/random.cc` (class `random`: `find_victim`);
  * `src/inc/cache_stats.h` (`MAX_CPUS_FOR_COMPETITION`, `struct cache_stats`
    and the declared `operator-`).

C++ `long`/`std::size_t`/`uint64_t` quantities (way counts, set indices,
margins, cycle stamps) are modelled as `ℕ`: in every reachable configuration
of the simulator they are non-negative, and no operation of this core can
overflow a 64-bit counter within a simulated run, so the wrap-around of the
machine representation never matters for the properties proved here.
`std::vector` members are modelled as `List`; `vec[i]` reads that are
in bounds in every reachable call are modelled with `List.getD`.
-/

/-- The access-kind tag handed to the policies by the surrounding simulator
(the spec's "small closed set of access-type tags"); the policy code only
ever compares it against `WRITE`. -/
inductive access_type where
  | LOAD
  | RFO
  | PREFETCH
  | WRITE
  | TRANSLATION
deriving DecidableEq

/-- One slot of the read-only set snapshot (`champsim::cache_block`) handed to
`find_victim`. The replacement policies in this repository read only the
`valid` flag of a block, so only that field is modelled. -/
structure cache_block where
  valid : Bool
deriving DecidableEq

/-- `constexpr std::size_t MAX_CPUS_FOR_COMPETITION = 16;` from
`src/inc/cache_stats.h`. -/
def MAX_CPUS_FOR_COMPETITION : ℕ := 16

/-- The scan `for (long w = start; w < end; w++) if (!current_set[w].valid) return w;`
shared by `partition::find_victim` (over the requester's partition) and
`random::find_victim` (over the whole set). The second argument is the start
index, the third the number of ways scanned (`end - start`); `none` means the
loop fell through. An index outside the snapshot reads the default block
`⟨true⟩`, i.e. counts as valid; all calls proved about below stay in bounds. -/
def first_invalid (current_set : List cache_block) : ℕ → ℕ → Option ℕ
  | _, 0 => none
  | start, count + 1 =>
    if !(current_set.getD start ⟨true⟩).valid then some start
    else first_invalid current_set (start + 1) count

/-- The loop of `std::min_element`: `best`/`best_idx` hold the smallest value
seen so far and its index, `i` is the index of the head of the remaining list;
a later element replaces the candidate only when strictly smaller, so the
first occurrence of the minimum wins. Returns `(min value, its index)`. -/
def min_element_from : List ℕ → ℕ → ℕ → ℕ → ℕ × ℕ
  | [], best, best_idx, _ => (best, best_idx)
  | x :: xs, best, best_idx, i =>
    if x < best then min_element_from xs x i (i + 1)
    else min_element_from xs best best_idx (i + 1)

/-- `std::distance(begin, std::min_element(begin, end))` for the list of values
in `[begin, end)`: the index of the first minimal element, or `none` when the
range is empty (in which case `std::min_element` returns `end`). -/
def min_element_idx : List ℕ → Option ℕ
  | [] => none
  | x :: xs => some (min_element_from xs x 0 1).2

namespace partition

/-- The mutable members of class `partition` (`partition.h`):
`NUM_WAY`, `last_used_cycles` (one stamp per `(set, way)`, row-major,
size `NUM_SET * NUM_WAY`), the global recency clock `cycle`, and the margin
table `partition_left_margins` (size `NUM_CPUS + 1`). -/
structure State where
  NUM_WAY : ℕ
  last_used_cycles : List ℕ
  cycle : ℕ
  partition_left_margins : List ℕ
deriving DecidableEq

/-- `partition::initialize_replacement` (partition.cc lines 15-24):
`init_partition_ways = NUM_WAY / NUM_CPUS`; `margins[0] = 0`;
`margins[i] = i * init_partition_ways` for `1 ≤ i < NUM_CPUS`;
`margins[NUM_CPUS] = NUM_WAY`. Since `0 * init_partition_ways = 0`, the
whole table is the map below; the trailing `std::cout` has no model. The
configured CPU count is passed explicitly (it is the global `NUM_CPUS`
in the source). -/
def initialize_replacement (NUM_CPUS : ℕ) (st : State) : State :=
  { st with partition_left_margins :=
      ((List.range NUM_CPUS).map fun i => i * (st.NUM_WAY / NUM_CPUS)) ++ [st.NUM_WAY] }

/-- `long partition_start = partition_left_margins[triggering_cpu];` -/
def partition_start (st : State) (cpu : ℕ) : ℕ :=
  st.partition_left_margins.getD cpu 0

/-- `long partition_end = partition_left_margins[triggering_cpu + 1];` -/
def partition_end (st : State) (cpu : ℕ) : ℕ :=
  st.partition_left_margins.getD (cpu + 1) 0

/-- The recency stamp stored at `last_used_cycles[set * NUM_WAY + way]`. -/
def stamp (st : State) (set way : ℕ) : ℕ :=
  st.last_used_cycles.getD (set * st.NUM_WAY + way) 0

/-- `partition::find_victim` (partition.cc lines 27-51). First scan the
requester's partition `[partition_start, partition_end)` for an invalid way;
if none, take `std::min_element` over the partition's slice of
`last_used_cycles` and return `partition_start + distance`. On an empty
partition `std::min_element(begin, end)` with `begin == end` returns `end`
and the source's `assert(victim < end)` fails: that aborted outcome is
modelled as `none`. The body reads no member besides `NUM_WAY`,
`partition_left_margins` and `last_used_cycles` and writes none, which the
embedding reflects by returning only the chosen way. The unused `instr_id`,
`ip`, `full_addr` and `type` parameters are omitted. -/
def find_victim (st : State) (triggering_cpu : ℕ) (set : ℕ)
    (current_set : List cache_block) : Option ℕ :=
  match first_invalid current_set (partition_start st triggering_cpu)
      (partition_end st triggering_cpu - partition_start st triggering_cpu) with
  | some w => some w
  | none =>
    match min_element_idx ((st.last_used_cycles.drop
        (set * st.NUM_WAY + partition_start st triggering_cpu)).take
        (partition_end st triggering_cpu - partition_start st triggering_cpu)) with
    | some off => some (partition_start st triggering_cpu + off)
    | none => none

/-- `partition::replacement_cache_fill` (partition.cc lines 53-57):
`last_used_cycles.at(set * NUM_WAY + way) = cycle++;`. All calls proved
about below keep the index inside the table, where `.at` and `List.set`
agree. The unused `triggering_cpu`, address and `type` parameters are
omitted. -/
def replacement_cache_fill (st : State) (set way : ℕ) : State :=
  { st with
    last_used_cycles := st.last_used_cycles.set (set * st.NUM_WAY + way) st.cycle,
    cycle := st.cycle + 1 }

/-- `partition::update_replacement_state` (partition.cc lines 59-66):
`if (hit && access_type{type} != access_type::WRITE)
   last_used_cycles.at(set * NUM_WAY + way) = cycle++;`. -/
def update_replacement_state (st : State) (set way : ℕ) (type : access_type)
    (hit : Bool) : State :=
  if hit && (type != access_type.WRITE) then
    { st with
      last_used_cycles := st.last_used_cycles.set (set * st.NUM_WAY + way) st.cycle,
      cycle := st.cycle + 1 }
  else st

end partition

/-- The external fill path of the spec's warm-up scenario: after each
`find_victim` call the returned way is marked valid in the cache array
(snapshot) before the next call; `warm_snap st cpu set snap k` is the
snapshot seen by the `k`-th call. A `none` verdict (failed assertion)
leaves the snapshot unchanged. -/
def warm_snap (st : partition.State) (cpu set : ℕ)
    (snap : List cache_block) : ℕ → List cache_block
  | 0 => snap
  | k + 1 =>
    match partition.find_victim st cpu set (warm_snap st cpu set snap k) with
    | some v => (warm_snap st cpu set snap k).set v ⟨true⟩
    | none => warm_snap st cpu set snap k

namespace random

/-- `random::find_victim` (random.cc lines 7-18): return the first invalid
way of the whole set, else `dist(rng)`. The value drawn from the policy-local
`std::uniform_int_distribution<long> dist(0, ways - 1)` applied to `rng` is
passed in as `draw`; the distribution guarantees `draw < NUM_WAY`, which the
theorems below take as a hypothesis. `triggering_cpu` is a parameter of the
C++ function and is never read; the unused `instr_id`, `set`, `ip`,
`full_addr` and `type` parameters are omitted. The body mutates nothing but
the random source, which the embedding reflects by returning only the way. -/
def find_victim (NUM_WAY : ℕ) (triggering_cpu : ℕ)
    (current_set : List cache_block) (draw : ℕ) : ℕ :=
  match first_invalid current_set 0 NUM_WAY with
  | some w => w
  | none => draw

end random

/-- Wrap-around subtraction of two `uint64_t` values (the field type of the
counters of `struct cache_stats`). On snapshots taken from one run the
minuend dominates and this is plain subtraction. -/
def sub64 (a b : ℕ) : ℕ :=
  (a % 2 ^ 64 + (2 ^ 64 - b % 2 ^ 64)) % 2 ^ 64

/-- `struct cache_stats` (cache_stats.h lines 73-88): `name`, the five
prefetch counters, the four per-`(access_type, cpu)` event counters
(modelled as one per-CPU vector for each access type; positions up to
`MAX_CPUS_FOR_COMPETITION` as in the spec's aggregation clause), and
`total_miss_latency_cycles` (a signed `long`, modelled as `ℤ`). -/
structure cache_stats where
  name : String
  pf_requested : ℕ
  pf_issued : ℕ
  pf_useful : ℕ
  pf_useless : ℕ
  pf_fill : ℕ
  hits : access_type → List ℕ
  misses : access_type → List ℕ
  mshr_merge : access_type → List ℕ
  mshr_return : access_type → List ℕ
  total_miss_latency_cycles : ℤ

/-- Modelled from the spec: the body of `operator-(cache_stats, cache_stats)`
is not in the repository sources — `cache_stats.h` line 90 only declares it.
Per the spec's aggregation clause, every field of the result is
`lhs.field - rhs.field`, elementwise and positionwise for the per-CPU
vectors, with `name` taken from `lhs`. -/
def cache_stats.sub (lhs rhs : cache_stats) : cache_stats where
  name := lhs.name
  pf_requested := sub64 lhs.pf_requested rhs.pf_requested
  pf_issued := sub64 lhs.pf_issued rhs.pf_issued
  pf_useful := sub64 lhs.pf_useful rhs.pf_useful
  pf_useless := sub64 lhs.pf_useless rhs.pf_useless
  pf_fill := sub64 lhs.pf_fill rhs.pf_fill
  hits := fun t => List.zipWith sub64 (lhs.hits t) (rhs.hits t)
  misses := fun t => List.zipWith sub64 (lhs.misses t) (rhs.misses t)
  mshr_merge := fun t => List.zipWith sub64 (lhs.mshr_merge t) (rhs.mshr_merge t)
  mshr_return := fun t => List.zipWith sub64 (lhs.mshr_return t) (rhs.mshr_return t)
  total_miss_latency_cycles :=
    lhs.total_miss_latency_cycles - rhs.total_miss_latency_cycles

instance : Sub cache_stats := ⟨cache_stats.sub⟩

/-- A well-formed statistics snapshot: every per-CPU vector holds one
position per CPU id up to `MAX_CPUS_FOR_COMPETITION`, as the
`std::vector(MAX_CPUS_FOR_COMPETITION, 0)` initialisers of the source
guarantee. -/
def cache_stats.wf (s : cache_stats) : Prop :=
  (∀ t, (s.hits t).length = MAX_CPUS_FOR_COMPETITION) ∧
  (∀ t, (s.misses t).length = MAX_CPUS_FOR_COMPETITION) ∧
  (∀ t, (s.mshr_merge t).length = MAX_CPUS_FOR_COMPETITION) ∧
  (∀ t, (s.mshr_return t).length = MAX_CPUS_FOR_COMPETITION)

/-- A concrete snapshot used to witness the aggregation theorem. -/
def stats_example_lhs : cache_stats where
  name := "LLC"
  pf_requested := 9
  pf_issued := 8
  pf_useful := 7
  pf_useless := 6
  pf_fill := 5
  hits := fun _ => List.replicate 16 9
  misses := fun _ => List.replicate 16 8
  mshr_merge := fun _ => List.replicate 16 7
  mshr_return := fun _ => List.replicate 16 6
  total_miss_latency_cycles := 100

/-- A second concrete snapshot, taken "earlier" than `stats_example_lhs`. -/
def stats_example_rhs : cache_stats where
  name := "cpu0_LLC"
  pf_requested := 4
  pf_issued := 3
  pf_useful := 2
  pf_useless := 1
  pf_fill := 0
  hits := fun _ => List.replicate 16 4
  misses := fun _ => List.replicate 16 3
  mshr_merge := fun _ => List.replicate 16 2
  mshr_return := fun _ => List.replicate 16 1
  total_miss_latency_cycles := 40

/-- Specification-side definition for the refinement claim: whole-set
least-recently-used with invalid-priority, written from the spec's words —
return the lowest-index invalid way of the set if one exists, otherwise the
way of `[0, NUM_WAY)` with the smallest recency stamp, ties broken by lowest
index (the least way among the minimisers). -/
def lru_with_invalid_priority (st : partition.State) (set : ℕ)
    (snap : List cache_block) : Option ℕ :=
  if hinv : ∃ w, w < st.NUM_WAY ∧ (snap.getD w ⟨true⟩).valid = false then
    some (Nat.find hinv)
  else if h : 0 < st.NUM_WAY then
    some (Nat.find
      ((by
        obtain ⟨b, hb, hmin⟩ :=
          Finset.exists_min_image (Finset.range st.NUM_WAY)
            (partition.stamp st set) ⟨0, Finset.mem_range.mpr h⟩
        exact ⟨b, Finset.mem_range.mp hb,
          fun u hu => hmin u (Finset.mem_range.mpr hu)⟩) :
        ∃ w, w < st.NUM_WAY ∧ ∀ u, u < st.NUM_WAY →
          partition.stamp st set w ≤ partition.stamp st set u))
  else none

/-! ### Generic list access lemmas -/

theorem getD_drop {α} (l : List α) (a : ℕ) : ∀ (j : ℕ) (d : α),
    (l.drop a).getD j d = l.getD (a + j) d := by
  induction a generalizing l with
  | zero => intro j d; simp
  | succ a ih =>
    intro j d
    cases l with
    | nil => simp [List.getD]
    | cons x xs =>
      simpa [List.drop, Nat.succ_add] using ih xs j d

theorem getD_take {α} (l : List α) : ∀ (n j : ℕ) (d : α), j < n →
    (l.take n).getD j d = l.getD j d := by
  induction l with
  | nil => intro n j d _; simp
  | cons x xs ih =>
    intro n j d hj
    cases n with
    | zero => omega
    | succ m =>
      cases j with
      | zero => rfl
      | succ j => simpa using ih m j d (by omega)

theorem getD_set_self {α} (l : List α) : ∀ (i : ℕ) (x d : α), i < l.length →
    (l.set i x).getD i d = x := by
  induction l with
  | nil => intro i x d h; simp at h
  | cons y ys ih =>
    intro i x d h
    cases i with
    | zero => rfl
    | succ i => simpa using ih i x d (by simpa using h)

theorem getD_set_ne {α} (l : List α) : ∀ (i j : ℕ) (x d : α), i ≠ j →
    (l.set i x).getD j d = l.getD j d := by
  induction l with
  | nil => intro i j x d _; simp
  | cons y ys ih =>
    intro i j x d h
    cases i with
    | zero =>
      cases j with
      | zero => exact absurd rfl h
      | succ j => rfl
    | succ i =>
      cases j with
      | zero => rfl
      | succ j => simpa using ih i j x d (by omega)

theorem getD_append_left {α} (l l' : List α) : ∀ (i : ℕ) (d : α), i < l.length →
    ((l ++ l').getD i d = l.getD i d) := by
  induction l with
  | nil => intro i d h; simp at h
  | cons x xs ih =>
    intro i d h
    cases i with
    | zero => rfl
    | succ i => simpa using ih i d (by simpa using h)

theorem getD_append_length {α} (l : List α) (w d : α) :
    (l ++ [w]).getD l.length d = w := by
  induction l with
  | nil => rfl
  | cons x xs ih => simpa using ih

theorem getD_range_map (f : ℕ → ℕ) : ∀ (n i : ℕ) (d : ℕ), i < n →
    (((List.range n).map f).getD i d = f i) := by
  intro n i d h
  rw [List.getD_eq_getElem?_getD, List.getElem?_map, List.getElem?_range h]
  rfl

/-! ### Characterisation of the invalid-way scan -/

theorem first_invalid_spec (snap : List cache_block) :
    ∀ (count start : ℕ),
    (first_invalid snap start count = none ∧
      ∀ w, start ≤ w → w < start + count → (snap.getD w ⟨true⟩).valid = true) ∨
    (∃ w, first_invalid snap start count = some w ∧ start ≤ w ∧ w < start + count ∧
      (snap.getD w ⟨true⟩).valid = false ∧
      ∀ u, start ≤ u → u < w → (snap.getD u ⟨true⟩).valid = true) := by
  intro count
  induction count with
  | zero =>
    intro start
    exact Or.inl ⟨rfl, fun w h1 h2 => by omega⟩
  | succ c ih =>
    intro start
    cases hv : (snap.getD start ⟨true⟩).valid with
    | false =>
      refine Or.inr ⟨start, ?_, le_refl start, by omega, hv, fun u h1 h2 => by omega⟩
      simp only [first_invalid]
      rw [hv]
      simp
    | true =>
      have hstep : first_invalid snap start (c + 1) = first_invalid snap (start + 1) c := by
        simp only [first_invalid]
        rw [hv]
        simp
      rcases ih (start + 1) with ⟨hnone, hall⟩ | ⟨w, hw, h1, h2, h3, h4⟩
      · refine Or.inl ⟨hstep.trans hnone, fun w hw1 hw2 => ?_⟩
        rcases Nat.eq_or_lt_of_le hw1 with rfl | hlt
        · exact hv
        · exact hall w (by omega) (by omega)
      · refine Or.inr ⟨w, hstep.trans hw, by omega, by omega, h3, fun u hu1 hu2 => ?_⟩
        rcases Nat.eq_or_lt_of_le hu1 with rfl | hlt
        · exact hv
        · exact h4 u (by omega) hu2

/-! ### Characterisation of the minimum scan -/

theorem mef_spec : ∀ (xs : List ℕ) (best bi i : ℕ),
    ((min_element_from xs best bi i).1 ≤ best) ∧
    (∀ k, k < xs.length → (min_element_from xs best bi i).1 ≤ xs.getD k 0) ∧
    (((min_element_from xs best bi i).2 = bi ∧ (min_element_from xs best bi i).1 = best) ∨
      (∃ k, k < xs.length ∧ (min_element_from xs best bi i).2 = i + k ∧
        (min_element_from xs best bi i).1 = xs.getD k 0 ∧
        (min_element_from xs best bi i).1 < best ∧
        ∀ j, j < k → (min_element_from xs best bi i).1 < xs.getD j 0)) := by
  intro xs
  induction xs with
  | nil =>
    intro best bi i
    exact ⟨le_refl best, fun k hk => by simp at hk, Or.inl ⟨rfl, rfl⟩⟩
  | cons x xs ih =>
    intro best bi i
    by_cases hx : x < best
    · have hunf : min_element_from (x :: xs) best bi i = min_element_from xs x i (i + 1) := by
        simp [min_element_from, hx]
      obtain ⟨ha, hb, hc⟩ := ih x i (i + 1)
      rw [hunf]
      refine ⟨le_trans ha (le_of_lt hx), ?_, ?_⟩
      · intro k hk
        cases k with
        | zero => simpa using ha
        | succ k => simpa using hb k (by simpa using hk)
      · rcases hc with ⟨h1, h2⟩ | ⟨k, hk1, hk2, hk3, hk4, hk5⟩
        · refine Or.inr ⟨0, by simp, by omega, by simpa using h2, by omega, fun j hj => by omega⟩
        · refine Or.inr ⟨k + 1, by simpa using hk1, by omega, by simpa using hk3, by omega, ?_⟩
          intro j hj
          cases j with
          | zero => simpa using hk4
          | succ j => simpa using hk5 j (by omega)
    · have hunf : min_element_from (x :: xs) best bi i = min_element_from xs best bi (i + 1) := by
        simp [min_element_from, hx]
      obtain ⟨ha, hb, hc⟩ := ih best bi (i + 1)
      rw [hunf]
      refine ⟨ha, ?_, ?_⟩
      · intro k hk
        cases k with
        | zero => simpa using le_trans ha (by omega)
        | succ k => simpa using hb k (by simpa using hk)
      · rcases hc with ⟨h1, h2⟩ | ⟨k, hk1, hk2, hk3, hk4, hk5⟩
        · exact Or.inl ⟨h1, h2⟩
        · refine Or.inr ⟨k + 1, by simpa using hk1, by omega, by simpa using hk3, hk4, ?_⟩
          intro j hj
          cases j with
          | zero => simpa using lt_of_lt_of_le hk4 (by omega)
          | succ j => simpa using hk5 j (by omega)

theorem min_element_idx_spec (l : List ℕ) (hl : l ≠ []) :
    ∃ i, min_element_idx l = some i ∧ i < l.length ∧
      (∀ j, j < l.length → l.getD i 0 ≤ l.getD j 0) ∧
      (∀ j, j < i → l.getD i 0 < l.getD j 0) := by
  cases l with
  | nil => exact absurd rfl hl
  | cons x xs =>
    obtain ⟨ha, hb, hc⟩ := mef_spec xs x 0 1
    rcases hc with ⟨h1, h2⟩ | ⟨k, hk1, hk2, hk3, hk4, hk5⟩
    · refine ⟨0, by simp [min_element_idx, h1], by simp, ?_, fun j hj => by omega⟩
      intro j hj
      cases j with
      | zero => simp
      | succ j =>
        have := hb j (by simpa using hj)
        simpa [h2] using this
    · refine ⟨1 + k, by simp [min_element_idx, hk2], by simp only [List.length_cons]; omega, ?_, ?_⟩
      · intro j hj
        have hval : (x :: xs).getD (1 + k) 0 = xs.getD k 0 := by
          have : 1 + k = k + 1 := by omega
          rw [this]; simp
        cases j with
        | zero => rw [hval]; simpa [hk3] using le_of_lt hk4
        | succ j =>
          rw [hval]
          have := hb j (by simpa using hj)
          simpa [hk3] using this
      · intro j hj
        have hval : (x :: xs).getD (1 + k) 0 = xs.getD k 0 := by
          have : 1 + k = k + 1 := by omega
          rw [this]; simp
        cases j with
        | zero => rw [hval]; simpa [hk3] using hk4
        | succ j =>
          rw [hval]
          have := hk5 j (by omega)
          simpa [hk3] using this

/-! ### The margin table computed by initialize_replacement -/

theorem margins_length (NUM_CPUS : ℕ) (st : partition.State) :
    (partition.initialize_replacement NUM_CPUS st).partition_left_margins.length
      = NUM_CPUS + 1 := by
  simp [partition.initialize_replacement]

theorem margins_getD (NUM_CPUS : ℕ) (st : partition.State) (i : ℕ) (h : i ≤ NUM_CPUS) :
    (partition.initialize_replacement NUM_CPUS st).partition_left_margins.getD i 0
      = if i < NUM_CPUS then i * (st.NUM_WAY / NUM_CPUS) else st.NUM_WAY := by
  by_cases hi : i < NUM_CPUS
  · rw [if_pos hi]
    show (((List.range NUM_CPUS).map fun k => k * (st.NUM_WAY / NUM_CPUS)) ++
        [st.NUM_WAY]).getD i 0 = _
    rw [getD_append_left _ _ i 0 (by simpa using hi)]
    exact getD_range_map _ NUM_CPUS i 0 hi
  · rw [if_neg hi]
    have hieq : i = NUM_CPUS := by omega
    subst hieq
    show (((List.range i).map fun k => k * (st.NUM_WAY / i)) ++ [st.NUM_WAY]).getD i 0 = _
    have hlen : ((List.range i).map fun k => k * (st.NUM_WAY / i)).length = i := by simp
    have hval := getD_append_length
      ((List.range i).map fun k => k * (st.NUM_WAY / i)) st.NUM_WAY 0
    rw [hlen] at hval
    exact hval

theorem margins_mono (NUM_CPUS : ℕ) (st : partition.State) (i j : ℕ)
    (hij : i ≤ j) (hj : j ≤ NUM_CPUS) :
    (partition.initialize_replacement NUM_CPUS st).partition_left_margins.getD i 0 ≤
      (partition.initialize_replacement NUM_CPUS st).partition_left_margins.getD j 0 := by
  rw [margins_getD NUM_CPUS st i (le_trans hij hj), margins_getD NUM_CPUS st j hj]
  by_cases hi : i < NUM_CPUS
  · by_cases hjlt : j < NUM_CPUS
    · rw [if_pos hi, if_pos hjlt]
      exact mul_le_mul_right' hij _
    · rw [if_pos hi, if_neg hjlt]
      calc i * (st.NUM_WAY / NUM_CPUS) ≤ NUM_CPUS * (st.NUM_WAY / NUM_CPUS) :=
            mul_le_mul_right' (le_of_lt hi) _
        _ = st.NUM_WAY / NUM_CPUS * NUM_CPUS := mul_comm _ _
        _ ≤ st.NUM_WAY := Nat.div_mul_le_self _ _
  · have : ¬ j < NUM_CPUS := by omega
    rw [if_neg hi, if_neg this]

/-! ### Case analysis of partition::find_victim -/

theorem find_victim_invalid_case (st : partition.State) (cpu sidx : ℕ)
    (snap : List cache_block) (w : ℕ)
    (hw : first_invalid snap (partition.partition_start st cpu)
      (partition.partition_end st cpu - partition.partition_start st cpu) = some w) :
    partition.find_victim st cpu sidx snap = some w := by
  simp only [partition.find_victim]
  rw [hw]

theorem find_victim_lru_case (st : partition.State) (cpu sidx : ℕ)
    (snap : List cache_block)
    (hnone : first_invalid snap (partition.partition_start st cpu)
      (partition.partition_end st cpu - partition.partition_start st cpu) = none)
    (hlt : partition.partition_start st cpu < partition.partition_end st cpu)
    (hlen : sidx * st.NUM_WAY + partition.partition_end st cpu ≤
      st.last_used_cycles.length) :
    ∃ off, partition.find_victim st cpu sidx snap =
        some (partition.partition_start st cpu + off) ∧
      off < partition.partition_end st cpu - partition.partition_start st cpu ∧
      (∀ j, j < partition.partition_end st cpu - partition.partition_start st cpu →
        partition.stamp st sidx (partition.partition_start st cpu + off) ≤
          partition.stamp st sidx (partition.partition_start st cpu + j)) ∧
      (∀ j, j < off →
        partition.stamp st sidx (partition.partition_start st cpu + off) <
          partition.stamp st sidx (partition.partition_start st cpu + j)) := by
  have hps : partition.partition_start st cpu ≤ partition.partition_end st cpu :=
    le_of_lt hlt
  have hlength : ((st.last_used_cycles.drop
      (sidx * st.NUM_WAY + partition.partition_start st cpu)).take
      (partition.partition_end st cpu - partition.partition_start st cpu)).length
      = partition.partition_end st cpu - partition.partition_start st cpu := by
    simp only [List.length_take, List.length_drop]
    omega
  have hne : (st.last_used_cycles.drop
      (sidx * st.NUM_WAY + partition.partition_start st cpu)).take
      (partition.partition_end st cpu - partition.partition_start st cpu) ≠ [] := by
    apply List.length_pos.mp
    omega
  obtain ⟨off, hoff, hofflen, hmin, htie⟩ := min_element_idx_spec _ hne
  have hsegGet : ∀ j, j < partition.partition_end st cpu - partition.partition_start st cpu →
      ((st.last_used_cycles.drop
        (sidx * st.NUM_WAY + partition.partition_start st cpu)).take
        (partition.partition_end st cpu - partition.partition_start st cpu)).getD j 0
      = partition.stamp st sidx (partition.partition_start st cpu + j) := by
    intro j hj
    rw [getD_take _ _ _ _ hj, getD_drop, Nat.add_assoc]
    rfl
  rw [hlength] at hofflen
  refine ⟨off, ?_, hofflen, ?_, ?_⟩
  · simp only [partition.find_victim]
    rw [hnone, hoff]
  · intro j hj
    have h1 := hmin j (by omega)
    rwa [hsegGet off hofflen, hsegGet j hj] at h1
  · intro j hj
    have h1 := htie j hj
    rwa [hsegGet off hofflen, hsegGet j (by omega)] at h1

theorem find_victim_empty_case (st : partition.State) (cpu sidx : ℕ)
    (snap : List cache_block)
    (heq : partition.partition_start st cpu = partition.partition_end st cpu) :
    partition.find_victim st cpu sidx snap = none := by
  simp only [partition.find_victim]
  have h0 : partition.partition_end st cpu - partition.partition_start st cpu = 0 := by omega
  rw [h0]
  show (match (none : Option ℕ) with
    | some w => some w
    | none =>
      match min_element_idx ((st.last_used_cycles.drop
          (sidx * st.NUM_WAY + partition.partition_start st cpu)).take 0) with
      | some off => some (partition.partition_start st cpu + off)
      | none => none) = none
  simp [min_element_idx]

/-! ### Claim theorems -/

/-- C1: for the Partitioned-Recency policy, whenever every way of the
requesting CPU's (nonempty) partition `[partition_start, partition_end)` is
valid and the set's slice of the recency table is in bounds, `find_victim`
returns a way of that partition whose recency stamp is minimal over the
partition, and on ties the lowest such index (any way with an equal stamp
has an index ≥ the returned one). -/
theorem partition_find_victim_lru (st : partition.State) (cpu sidx : ℕ)
    (snap : List cache_block)
    (hlt : partition.partition_start st cpu < partition.partition_end st cpu)
    (hlen : sidx * st.NUM_WAY + partition.partition_end st cpu ≤
      st.last_used_cycles.length)
    (hvalid : ∀ w, partition.partition_start st cpu ≤ w →
      w < partition.partition_end st cpu → (snap.getD w ⟨true⟩).valid = true) :
    ∃ v, partition.find_victim st cpu sidx snap = some v ∧
      partition.partition_start st cpu ≤ v ∧ v < partition.partition_end st cpu ∧
      (∀ w, partition.partition_start st cpu ≤ w → w < partition.partition_end st cpu →
        partition.stamp st sidx v ≤ partition.stamp st sidx w) ∧
      (∀ w, partition.partition_start st cpu ≤ w → w < partition.partition_end st cpu →
        partition.stamp st sidx w = partition.stamp st sidx v → v ≤ w) := by
  rcases first_invalid_spec snap
      (partition.partition_end st cpu - partition.partition_start st cpu)
      (partition.partition_start st cpu) with ⟨hnone, _⟩ | ⟨w, hw, h1, h2, h3, _⟩
  · obtain ⟨off, hfv, hofflt, hmin, htie⟩ :=
      find_victim_lru_case st cpu sidx snap hnone hlt hlen
    refine ⟨partition.partition_start st cpu + off, hfv, by omega, by omega, ?_, ?_⟩
    · intro w hw1 hw2
      have h := hmin (w - partition.partition_start st cpu) (by omega)
      rwa [show partition.partition_start st cpu +
        (w - partition.partition_start st cpu) = w by omega] at h
    · intro w hw1 hw2 heq
      by_contra hcon
      push_neg at hcon
      have h := htie (w - partition.partition_start st cpu) (by omega)
      rw [show partition.partition_start st cpu +
        (w - partition.partition_start st cpu) = w by omega] at h
      omega
  · have := hvalid w h1 (by omega)
    rw [this] at h3
    cases h3

/-- Closed-input instantiation of `partition_find_victim_lru`: a fully valid
partition `[0, 3)` with recency stamps `[5, 2, 9]` yields the way with the
smallest stamp. -/
theorem partition_find_victim_lru_witness :
    ∃ v, partition.find_victim ⟨3, [5, 2, 9], 10, [0, 3]⟩ 0 0
        [⟨true⟩, ⟨true⟩, ⟨true⟩] = some v ∧
      partition.partition_start ⟨3, [5, 2, 9], 10, [0, 3]⟩ 0 ≤ v ∧
      v < partition.partition_end ⟨3, [5, 2, 9], 10, [0, 3]⟩ 0 ∧
      (∀ w, partition.partition_start ⟨3, [5, 2, 9], 10, [0, 3]⟩ 0 ≤ w →
        w < partition.partition_end ⟨3, [5, 2, 9], 10, [0, 3]⟩ 0 →
        partition.stamp ⟨3, [5, 2, 9], 10, [0, 3]⟩ 0 v ≤
          partition.stamp ⟨3, [5, 2, 9], 10, [0, 3]⟩ 0 w) ∧
      (∀ w, partition.partition_start ⟨3, [5, 2, 9], 10, [0, 3]⟩ 0 ≤ w →
        w < partition.partition_end ⟨3, [5, 2, 9], 10, [0, 3]⟩ 0 →
        partition.stamp ⟨3, [5, 2, 9], 10, [0, 3]⟩ 0 w =
          partition.stamp ⟨3, [5, 2, 9], 10, [0, 3]⟩ 0 v → v ≤ w) :=
  partition_find_victim_lru ⟨3, [5, 2, 9], 10, [0, 3]⟩ 0 0
    [⟨true⟩, ⟨true⟩, ⟨true⟩] (by decide) (by decide)
    (by
      intro w _ hw
      have hw3 : w < 3 := hw
      interval_cases w <;> decide)

/-- C2: after `initialize_replacement` with `NUM_CPUS ≥ 1`, the margin table
has `NUM_CPUS + 1` entries, starts at `0`, ends at `NUM_WAY`, is monotonically
non-decreasing, assigns every way index below `NUM_WAY` to exactly one CPU's
half-open interval, and gives the last CPU its even share plus the whole
remainder of `NUM_WAY / NUM_CPUS`. -/
theorem initialize_partition_complete (NUM_CPUS : ℕ) (st : partition.State)
    (h1 : 1 ≤ NUM_CPUS) :
    (partition.initialize_replacement NUM_CPUS st).partition_left_margins.length
        = NUM_CPUS + 1 ∧
    (partition.initialize_replacement NUM_CPUS st).partition_left_margins.getD 0 0 = 0 ∧
    (partition.initialize_replacement NUM_CPUS st).partition_left_margins.getD NUM_CPUS 0
        = st.NUM_WAY ∧
    (∀ i j, i ≤ j → j ≤ NUM_CPUS →
      (partition.initialize_replacement NUM_CPUS st).partition_left_margins.getD i 0 ≤
        (partition.initialize_replacement NUM_CPUS st).partition_left_margins.getD j 0) ∧
    (∀ w, w < st.NUM_WAY → ∃! i, i < NUM_CPUS ∧
      (partition.initialize_replacement NUM_CPUS st).partition_left_margins.getD i 0 ≤ w ∧
      w < (partition.initialize_replacement NUM_CPUS st).partition_left_margins.getD
        (i + 1) 0) ∧
    st.NUM_WAY -
      (partition.initialize_replacement NUM_CPUS st).partition_left_margins.getD
        (NUM_CPUS - 1) 0
      = st.NUM_WAY / NUM_CPUS + st.NUM_WAY % NUM_CPUS := by
  have hg : ∀ i, i ≤ NUM_CPUS →
      (partition.initialize_replacement NUM_CPUS st).partition_left_margins.getD i 0
        = if i < NUM_CPUS then i * (st.NUM_WAY / NUM_CPUS) else st.NUM_WAY :=
    fun i hi => margins_getD NUM_CPUS st i hi
  have hNCq : NUM_CPUS * (st.NUM_WAY / NUM_CPUS) ≤ st.NUM_WAY := by
    rw [mul_comm]; exact Nat.div_mul_le_self _ _
  have hsplit : NUM_CPUS * (st.NUM_WAY / NUM_CPUS)
      = (NUM_CPUS - 1) * (st.NUM_WAY / NUM_CPUS) + st.NUM_WAY / NUM_CPUS := by
    have h3 : st.NUM_WAY / NUM_CPUS ≤ NUM_CPUS * (st.NUM_WAY / NUM_CPUS) :=
      Nat.le_mul_of_pos_left _ (by omega)
    rw [Nat.sub_one_mul]
    omega
  have hdm := Nat.div_add_mod st.NUM_WAY NUM_CPUS
  refine ⟨margins_length NUM_CPUS st, ?_, ?_, fun i j hij hj => margins_mono NUM_CPUS st i j hij hj, ?_, ?_⟩
  · rw [hg 0 (by omega), if_pos (by omega)]
    simp
  · rw [hg NUM_CPUS (le_refl _), if_neg (by omega)]
  · intro w hw
    by_cases hq : st.NUM_WAY / NUM_CPUS = 0
    · refine ⟨NUM_CPUS - 1, ⟨by omega, ?_, ?_⟩, ?_⟩
      · rw [hg (NUM_CPUS - 1) (by omega), if_pos (by omega), hq]
        simp
      · rw [show NUM_CPUS - 1 + 1 = NUM_CPUS by omega, hg NUM_CPUS (le_refl _),
          if_neg (by omega)]
        exact hw
      · intro j ⟨hj1, hj2, hj3⟩
        by_contra hne
        have hj4 : j + 1 ≤ NUM_CPUS - 1 := by omega
        have hmono := margins_mono NUM_CPUS st (j + 1) (NUM_CPUS - 1) hj4 (by omega)
        rw [hg (NUM_CPUS - 1) (by omega), if_pos (by omega), hq, Nat.mul_zero] at hmono
        omega
    · have hqpos : 0 < st.NUM_WAY / NUM_CPUS := Nat.pos_of_ne_zero hq
      refine ⟨min (w / (st.NUM_WAY / NUM_CPUS)) (NUM_CPUS - 1), ⟨by omega, ?_, ?_⟩, ?_⟩
      · rw [hg _ (by omega), if_pos (by omega)]
        rcases Nat.le_total (w / (st.NUM_WAY / NUM_CPUS)) (NUM_CPUS - 1) with hle | hle
        · rw [min_eq_left hle]
          exact Nat.div_mul_le_self _ _
        · rw [min_eq_right hle]
          calc (NUM_CPUS - 1) * (st.NUM_WAY / NUM_CPUS)
              ≤ w / (st.NUM_WAY / NUM_CPUS) * (st.NUM_WAY / NUM_CPUS) :=
                mul_le_mul_right' hle _
            _ ≤ w := Nat.div_mul_le_self _ _
      · rcases Nat.lt_or_ge (w / (st.NUM_WAY / NUM_CPUS)) (NUM_CPUS - 1) with hlt | hge
        · rw [min_eq_left (le_of_lt hlt), hg _ (by omega), if_pos (by omega)]
          have hdm2 := Nat.div_add_mod w (st.NUM_WAY / NUM_CPUS)
          have hmod2 := Nat.mod_lt w hqpos
          calc w = st.NUM_WAY / NUM_CPUS * (w / (st.NUM_WAY / NUM_CPUS)) +
                w % (st.NUM_WAY / NUM_CPUS) := hdm2.symm
            _ < st.NUM_WAY / NUM_CPUS * (w / (st.NUM_WAY / NUM_CPUS)) +
                st.NUM_WAY / NUM_CPUS := by omega
            _ = (w / (st.NUM_WAY / NUM_CPUS) + 1) * (st.NUM_WAY / NUM_CPUS) := by ring
        · rw [min_eq_right (by omega), show NUM_CPUS - 1 + 1 = NUM_CPUS by omega,
            hg NUM_CPUS (le_refl _), if_neg (by omega)]
          exact hw
      · intro j ⟨hj1, hj2, hj3⟩
        by_contra hne
        rcases Nat.lt_or_ge j (min (w / (st.NUM_WAY / NUM_CPUS)) (NUM_CPUS - 1))
            with hlt | hge
        · have hmono := margins_mono NUM_CPUS st (j + 1)
            (min (w / (st.NUM_WAY / NUM_CPUS)) (NUM_CPUS - 1)) (by omega) (by omega)
          have hstart : (partition.initialize_replacement NUM_CPUS
              st).partition_left_margins.getD
              (min (w / (st.NUM_WAY / NUM_CPUS)) (NUM_CPUS - 1)) 0 ≤ w := by
            rw [hg _ (by omega), if_pos (by omega)]
            rcases Nat.le_total (w / (st.NUM_WAY / NUM_CPUS)) (NUM_CPUS - 1)
                with hle | hle
            · rw [min_eq_left hle]
              exact Nat.div_mul_le_self _ _
            · rw [min_eq_right hle]
              calc (NUM_CPUS - 1) * (st.NUM_WAY / NUM_CPUS)
                  ≤ w / (st.NUM_WAY / NUM_CPUS) * (st.NUM_WAY / NUM_CPUS) :=
                    mul_le_mul_right' hle _
                _ ≤ w := Nat.div_mul_le_self _ _
          omega
        · have hmlt : min (w / (st.NUM_WAY / NUM_CPUS)) (NUM_CPUS - 1)  < j := by omega
          have hmono := margins_mono NUM_CPUS st
            (min (w / (st.NUM_WAY / NUM_CPUS)) (NUM_CPUS - 1) + 1) j (by omega)
            (by omega)
          have hbound : w < (partition.initialize_replacement NUM_CPUS
              st).partition_left_margins.getD
              (min (w / (st.NUM_WAY / NUM_CPUS)) (NUM_CPUS - 1) + 1) 0 := by
            rcases Nat.lt_or_ge (w / (st.NUM_WAY / NUM_CPUS)) (NUM_CPUS - 1)
                with hlt2 | hge2
            · rw [min_eq_left (le_of_lt hlt2), hg _ (by omega), if_pos (by omega)]
              have hdm2 := Nat.div_add_mod w (st.NUM_WAY / NUM_CPUS)
              have hmod2 := Nat.mod_lt w hqpos
              calc w = st.NUM_WAY / NUM_CPUS * (w / (st.NUM_WAY / NUM_CPUS)) +
                    w % (st.NUM_WAY / NUM_CPUS) := hdm2.symm
                _ < st.NUM_WAY / NUM_CPUS * (w / (st.NUM_WAY / NUM_CPUS)) +
                    st.NUM_WAY / NUM_CPUS := by omega
                _ = (w / (st.NUM_WAY / NUM_CPUS) + 1) * (st.NUM_WAY / NUM_CPUS) := by
                    ring
            · rw [min_eq_right (by omega), show NUM_CPUS - 1 + 1 = NUM_CPUS by omega,
                hg NUM_CPUS (le_refl _), if_neg (by omega)]
              exact hw
          omega
  · rw [hg (NUM_CPUS - 1) (by omega), if_pos (by omega)]
    obtain ⟨q, hqg⟩ : ∃ q, st.NUM_WAY / NUM_CPUS = q := ⟨_, rfl⟩
    obtain ⟨r, hrg⟩ : ∃ r, st.NUM_WAY % NUM_CPUS = r := ⟨_, rfl⟩
    rw [hqg] at hdm hNCq hsplit ⊢
    rw [hrg] at hdm ⊢
    omega

/-- Closed-input instantiation of `initialize_partition_complete` at
`NUM_CPUS = 3`, `NUM_WAY = 8` (even share 2, remainder 2 folded into the
last CPU's partition). -/
theorem initialize_partition_complete_witness :
    (partition.initialize_replacement 3 ⟨8, [], 0, []⟩).partition_left_margins.length
        = 3 + 1 ∧
    (partition.initialize_replacement 3 ⟨8, [], 0, []⟩).partition_left_margins.getD 0 0
        = 0 ∧
    (partition.initialize_replacement 3 ⟨8, [], 0, []⟩).partition_left_margins.getD 3 0
        = 8 ∧
    (∀ i j, i ≤ j → j ≤ 3 →
      (partition.initialize_replacement 3 ⟨8, [], 0, []⟩).partition_left_margins.getD i 0 ≤
        (partition.initialize_replacement 3 ⟨8, [], 0, []⟩).partition_left_margins.getD j 0) ∧
    (∀ w, w < 8 → ∃! i, i < 3 ∧
      (partition.initialize_replacement 3 ⟨8, [], 0, []⟩).partition_left_margins.getD i 0 ≤ w ∧
      w < (partition.initialize_replacement 3 ⟨8, [], 0, []⟩).partition_left_margins.getD
        (i + 1) 0) ∧
    8 - (partition.initialize_replacement 3 ⟨8, [], 0, []⟩).partition_left_margins.getD 2 0
        = 8 / 3 + 8 % 3 :=
  initialize_partition_complete 3 ⟨8, [], 0, []⟩ (by decide)

/-- C3 counterexample: with margin table `[0, 0, 2]` CPU 0's partition is
empty; the victim search then ends with `std::min_element` over an empty
range, the source's `assert(victim < end)` fails, and no victim is produced
(`none`), contradicting the claim that the call completes without failing an
assertion. -/
theorem find_victim_empty_partition_cex :
    partition.find_victim ⟨2, [3, 4], 9, [0, 0, 2]⟩ 0 0 [⟨true⟩, ⟨true⟩] = none := by
  decide

/-- C3 as amended: on an empty partition (`partition_start = partition_end`)
the victim search reads nothing — the result is independent of the whole
recency table and of the set snapshot, so no out-of-bounds read can occur —
but instead of completing normally it fails the source's
`assert(victim < end)` (modelled by `none`). -/
theorem find_victim_empty_partition_no_reads (st : partition.State)
    (cpu sidx : ℕ) (snap : List cache_block) (lt2 : List ℕ)
    (heq : partition.partition_start st cpu = partition.partition_end st cpu) :
    partition.find_victim { st with last_used_cycles := lt2 } cpu sidx snap = none := by
  apply find_victim_empty_case
  simpa [partition.partition_start, partition.partition_end] using heq

/-- Closed-input instantiation of `find_victim_empty_partition_no_reads`:
the margins `[1, 1, 2]` give CPU 0 an empty partition, and the search
returns no victim whatever the snapshot and recency table hold. -/
theorem find_victim_empty_partition_no_reads_witness :
    partition.find_victim { (⟨2, [], 0, [1, 1, 2]⟩ : partition.State) with
      last_used_cycles := [9, 9] } 0 0 [⟨false⟩] = none :=
  find_victim_empty_partition_no_reads ⟨2, [], 0, [1, 1, 2]⟩ 0 0 [⟨false⟩] [9, 9]
    (by decide)

/-- C4: `update_replacement_state` touches the recency bookkeeping exactly
when the access was a hit and not a write: in that case the stamp of
`(set, way)` is assigned the clock and the clock advances; in every other
case (miss, or write hit) the state is completely unchanged; and a
qualifying hit on a slot whose stored stamp differs from the current clock
(as after any fill) changes the recency table itself. -/
theorem update_recency_iff (st : partition.State) (sidx way : ℕ)
    (type : access_type) (hit : Bool)
    (hidx : sidx * st.NUM_WAY + way < st.last_used_cycles.length) :
    (partition.update_replacement_state st sidx way type hit ≠ st ↔
      (hit = true ∧ type ≠ access_type.WRITE)) ∧
    (partition.update_replacement_state st sidx way access_type.WRITE true = st) ∧
    (hit = true → type ≠ access_type.WRITE →
      (partition.update_replacement_state st sidx way type hit).last_used_cycles
        = st.last_used_cycles.set (sidx * st.NUM_WAY + way) st.cycle ∧
      (partition.update_replacement_state st sidx way type hit).cycle = st.cycle + 1) ∧
    (hit = true → type ≠ access_type.WRITE →
      partition.stamp st sidx way ≠ st.cycle →
      (partition.update_replacement_state st sidx way type hit).last_used_cycles
        ≠ st.last_used_cycles) := by
  have hwrite : partition.update_replacement_state st sidx way access_type.WRITE true
      = st := by
    simp [partition.update_replacement_state]
  by_cases h : hit = true ∧ type ≠ access_type.WRITE
  · have hb : (hit && (type != access_type.WRITE)) = true := by
      obtain ⟨h1, h2⟩ := h
      subst h1
      simp [h2]
    have hupd : partition.update_replacement_state st sidx way type hit =
        { st with
          last_used_cycles :=
            st.last_used_cycles.set (sidx * st.NUM_WAY + way) st.cycle,
          cycle := st.cycle + 1 } := by
      simp [partition.update_replacement_state, hb]
    refine ⟨?_, hwrite, fun _ _ => by rw [hupd]; exact ⟨rfl, rfl⟩,
      fun _ _ hstamp => ?_⟩
    · constructor
      · intro _
        exact h
      · intro _
        rw [hupd]
        intro hEq
        have hc := congrArg partition.State.cycle hEq
        simp at hc
    · rw [hupd]
      show st.last_used_cycles.set (sidx * st.NUM_WAY + way) st.cycle
        ≠ st.last_used_cycles
      intro hEq
      have hval := getD_set_self st.last_used_cycles
        (sidx * st.NUM_WAY + way) st.cycle 0 hidx
      rw [hEq] at hval
      exact hstamp hval
  · have hb : (hit && (type != access_type.WRITE)) = false := by
      cases hit with
      | false => simp
      | true =>
        have h2 : type = access_type.WRITE := by
          by_contra h3
          exact h ⟨rfl, h3⟩
        rw [h2]
        simp
    have hupd : partition.update_replacement_state st sidx way type hit = st := by
      simp [partition.update_replacement_state, hb]
    refine ⟨?_, hwrite, fun h1 h2 => absurd ⟨h1, h2⟩ h,
      fun h1 h2 _ => absurd ⟨h1, h2⟩ h⟩
    constructor
    · intro hne
      exact absurd hupd hne
    · intro hh
      exact absurd hh h

/-- Closed-input instantiation of `update_recency_iff`: one-way cache, clock
at 5, a read hit stamps and advances, a write hit is the identity. -/
theorem update_recency_iff_witness :
    (partition.update_replacement_state ⟨1, [0], 5, [0, 1]⟩ 0 0 access_type.LOAD true
        ≠ ⟨1, [0], 5, [0, 1]⟩ ↔ (true = true ∧ access_type.LOAD ≠ access_type.WRITE)) ∧
    (partition.update_replacement_state ⟨1, [0], 5, [0, 1]⟩ 0 0 access_type.WRITE true
        = ⟨1, [0], 5, [0, 1]⟩) ∧
    (true = true → access_type.LOAD ≠ access_type.WRITE →
      (partition.update_replacement_state ⟨1, [0], 5, [0, 1]⟩ 0 0 access_type.LOAD
        true).last_used_cycles = ([0] : List ℕ).set (0 * 1 + 0) 5 ∧
      (partition.update_replacement_state ⟨1, [0], 5, [0, 1]⟩ 0 0 access_type.LOAD
        true).cycle = 5 + 1) ∧
    (true = true → access_type.LOAD ≠ access_type.WRITE →
      partition.stamp ⟨1, [0], 5, [0, 1]⟩ 0 0 ≠ 5 →
      (partition.update_replacement_state ⟨1, [0], 5, [0, 1]⟩ 0 0 access_type.LOAD
        true).last_used_cycles ≠ ([0] : List ℕ)) :=
  update_recency_iff ⟨1, [0], 5, [0, 1]⟩ 0 0 access_type.LOAD true (by decide)

/-! ### Warm-up helpers -/

theorem warm_len (st : partition.State) (cpu sidx : ℕ) (snap : List cache_block) :
    ∀ k, (warm_snap st cpu sidx snap k).length = snap.length := by
  intro k
  induction k with
  | zero => rfl
  | succ k ih =>
    simp only [warm_snap]
    cases hfv : partition.find_victim st cpu sidx (warm_snap st cpu sidx snap k) with
    | none => exact ih
    | some v => simp [ih]

theorem find_victim_least_invalid (st : partition.State) (cpu sidx : ℕ)
    (snap2 : List cache_block) (w0 : ℕ)
    (h1 : partition.partition_start st cpu ≤ w0)
    (h2 : w0 < partition.partition_end st cpu)
    (h3 : (snap2.getD w0 ⟨true⟩).valid = false)
    (h4 : ∀ u, partition.partition_start st cpu ≤ u → u < w0 →
      (snap2.getD u ⟨true⟩).valid = true) :
    partition.find_victim st cpu sidx snap2 = some w0 := by
  rcases first_invalid_spec snap2
      (partition.partition_end st cpu - partition.partition_start st cpu)
      (partition.partition_start st cpu) with ⟨hnone, hall⟩ | ⟨w, hw, hh1, hh2, hh3, hh4⟩
  · have hc := hall w0 h1 (by omega)
    rw [h3] at hc
    simp at hc
  · have hww : w = w0 := by
      rcases Nat.lt_trichotomy w w0 with hlt | heq | hgt
      · have hc := h4 w hh1 hlt
        rw [hh3] at hc
        simp at hc
      · exact heq
      · have hc := hh4 w0 h1 hgt
        rw [h3] at hc
        simp at hc
    subst hww
    exact find_victim_invalid_case st cpu sidx snap2 w hw

theorem warm_inv (st : partition.State) (cpu sidx : ℕ) (snap : List cache_block)
    (hlen : partition.partition_end st cpu ≤ snap.length)
    (hinv : ∀ w, partition.partition_start st cpu ≤ w →
      w < partition.partition_end st cpu → (snap.getD w ⟨true⟩).valid = false) :
    ∀ k, k ≤ partition.partition_end st cpu - partition.partition_start st cpu →
      (∀ w, partition.partition_start st cpu ≤ w →
        w < partition.partition_start st cpu + k →
        ((warm_snap st cpu sidx snap k).getD w ⟨true⟩).valid = true) ∧
      (∀ w, partition.partition_start st cpu + k ≤ w →
        w < partition.partition_end st cpu →
        ((warm_snap st cpu sidx snap k).getD w ⟨true⟩).valid = false) := by
  intro k
  induction k with
  | zero =>
    intro _
    exact ⟨fun w hw1 hw2 => by omega, fun w hw1 hw2 => hinv w (by omega) hw2⟩
  | succ k ih =>
    intro hk
    obtain ⟨ihv, ihi⟩ := ih (by omega)
    have hfv : partition.find_victim st cpu sidx (warm_snap st cpu sidx snap k)
        = some (partition.partition_start st cpu + k) :=
      find_victim_least_invalid st cpu sidx _ _ (by omega) (by omega)
        (ihi _ (le_refl _) (by omega)) (fun u hu1 hu2 => ihv u hu1 (by omega))
    have hstep : warm_snap st cpu sidx snap (k + 1)
        = (warm_snap st cpu sidx snap k).set
          (partition.partition_start st cpu + k) ⟨true⟩ := by
      simp only [warm_snap]
      rw [hfv]
    constructor
    · intro w hw1 hw2
      rw [hstep]
      by_cases hwk : w = partition.partition_start st cpu + k
      · have hb : partition.partition_start st cpu + k
            < (warm_snap st cpu sidx snap k).length := by
          rw [warm_len]
          omega
        rw [hwk, getD_set_self _ _ _ _ hb]
      · rw [getD_set_ne _ _ _ _ _ (by omega)]
        exact ihv w hw1 (by omega)
    · intro w hw1 hw2
      rw [hstep, getD_set_ne _ _ _ _ _ (by omega)]
      exact ihi w (by omega) hw2

/-- C5: starting from a snapshot whose ways in the requester's partition
`[partition_start, partition_end)` are all invalid, the first `end - start`
`find_victim` calls (each followed by marking the returned way valid) return
`start, start + 1, …, end - 1` in order; and in every state, whenever some
way of the requester's partition is invalid, `find_victim` returns the
lowest-index invalid way of that partition — never a way outside it. -/
theorem warmup_fill_order (st : partition.State) (cpu sidx : ℕ)
    (snap : List cache_block)
    (hlen : partition.partition_end st cpu ≤ snap.length)
    (hinv : ∀ w, partition.partition_start st cpu ≤ w →
      w < partition.partition_end st cpu → (snap.getD w ⟨true⟩).valid = false) :
    (∀ k, k < partition.partition_end st cpu - partition.partition_start st cpu →
      partition.find_victim st cpu sidx (warm_snap st cpu sidx snap k)
        = some (partition.partition_start st cpu + k)) ∧
    (∀ snap2 w0, partition.partition_start st cpu ≤ w0 →
      w0 < partition.partition_end st cpu → (snap2.getD w0 ⟨true⟩).valid = false →
      ∃ v, partition.find_victim st cpu sidx snap2 = some v ∧
        partition.partition_start st cpu ≤ v ∧ v < partition.partition_end st cpu ∧
        (snap2.getD v ⟨true⟩).valid = false ∧
        ∀ u, partition.partition_start st cpu ≤ u → u < v →
          (snap2.getD u ⟨true⟩).valid = true) := by
  constructor
  · intro k hk
    obtain ⟨ihv, ihi⟩ := warm_inv st cpu sidx snap hlen hinv k (by omega)
    exact find_victim_least_invalid st cpu sidx _ _ (by omega) (by omega)
      (ihi _ (le_refl _) (by omega)) (fun u hu1 hu2 => ihv u hu1 (by omega))
  · intro snap2 w0 h1 h2 h3
    rcases first_invalid_spec snap2
        (partition.partition_end st cpu - partition.partition_start st cpu)
        (partition.partition_start st cpu) with ⟨hnone, hall⟩ | ⟨w, hw, hh1, hh2, hh3, hh4⟩
    · have hc := hall w0 h1 (by omega)
      rw [h3] at hc
      simp at hc
    · exact ⟨w, find_victim_invalid_case st cpu sidx snap2 w hw, hh1, by omega, hh3, hh4⟩

/-- Closed-input instantiation of `warmup_fill_order`: CPU 1 owns `[2, 4)`
of a 4-way set that starts with its partition invalid; the two warm-up calls
return ways 2 then 3. -/
theorem warmup_fill_order_witness :
    (∀ k, k < 4 - 2 →
      partition.find_victim ⟨4, [0, 0, 0, 0], 0, [0, 2, 4]⟩ 1 0
        (warm_snap ⟨4, [0, 0, 0, 0], 0, [0, 2, 4]⟩ 1 0
          [⟨true⟩, ⟨true⟩, ⟨false⟩, ⟨false⟩] k) = some (2 + k)) ∧
    (∀ snap2 w0, (2 : ℕ) ≤ w0 → w0 < 4 → (snap2.getD w0 ⟨true⟩).valid = false →
      ∃ v, partition.find_victim ⟨4, [0, 0, 0, 0], 0, [0, 2, 4]⟩ 1 0 snap2 = some v ∧
        2 ≤ v ∧ v < 4 ∧ (snap2.getD v ⟨true⟩).valid = false ∧
        ∀ u, 2 ≤ u → u < v → (snap2.getD u ⟨true⟩).valid = true) :=
  warmup_fill_order ⟨4, [0, 0, 0, 0], 0, [0, 2, 4]⟩ 1 0
    [⟨true⟩, ⟨true⟩, ⟨false⟩, ⟨false⟩] (by decide)
    (by
      intro w hw1 hw2
      have hw3 : 2 ≤ w := hw1
      have hw4 : w < 4 := hw2
      interval_cases w <;> decide)

/-- C6 counterexample: with `NUM_WAY = 1 < NUM_CPUS = 2` the margins computed
by `initialize_replacement` are `[0, 0, 1]`, CPU 0 (a valid CPU id) has an
empty partition, and on a fully valid set `find_victim` fails its assertion
and yields no way at all — refuting the claim that every call with a valid
CPU and set index returns a way in `[0, NUM_WAY)`. -/
theorem find_victim_in_range_cex :
    partition.find_victim (partition.initialize_replacement 2 ⟨1, [0], 0, [0, 0, 0]⟩)
      0 0 [⟨true⟩] = none := by decide

/-- C6 as amended: whenever the requester's partition is nonempty — which the
margin table of `initialize_replacement` guarantees for every CPU as soon as
`NUM_WAY ≥ NUM_CPUS ≥ 1` — `find_victim` returns a way in `[0, NUM_WAY)`;
and the Random policy's `find_victim` returns a way in `[0, NUM_WAY)`
whenever its drawn value is (as its distribution guarantees) in that range.
Neither call mutates any bookkeeping: both are pure functions of the policy
state, mirroring the member-write-free C++ bodies. -/
theorem find_victim_in_range (NUM_CPUS : ℕ) (st : partition.State) (cpu sidx : ℕ)
    (snap : List cache_block) (NW draw : ℕ) (rsnap : List cache_block)
    (h1 : 1 ≤ NUM_CPUS) (h2 : NUM_CPUS ≤ st.NUM_WAY) (hcpu : cpu < NUM_CPUS)
    (hlen : sidx * st.NUM_WAY + st.NUM_WAY ≤ st.last_used_cycles.length)
    (hdraw : draw < NW) :
    (∃ v, partition.find_victim (partition.initialize_replacement NUM_CPUS st)
        cpu sidx snap = some v ∧ v < st.NUM_WAY) ∧
    random.find_victim NW cpu rsnap draw < NW := by
  have hq : 1 ≤ st.NUM_WAY / NUM_CPUS := (Nat.one_le_div_iff (by omega)).mpr h2
  have hNCq : NUM_CPUS * (st.NUM_WAY / NUM_CPUS) ≤ st.NUM_WAY := by
    rw [mul_comm]
    exact Nat.div_mul_le_self _ _
  have hcm : (cpu + 1) * (st.NUM_WAY / NUM_CPUS)
      = cpu * (st.NUM_WAY / NUM_CPUS) + st.NUM_WAY / NUM_CPUS := add_one_mul _ _
  have hcc : (cpu + 1) * (st.NUM_WAY / NUM_CPUS) ≤ NUM_CPUS * (st.NUM_WAY / NUM_CPUS) :=
    mul_le_mul_right' (by omega) _
  have hps : partition.partition_start (partition.initialize_replacement NUM_CPUS st) cpu
      = cpu * (st.NUM_WAY / NUM_CPUS) := by
    have hg := margins_getD NUM_CPUS st cpu (le_of_lt hcpu)
    rw [if_pos hcpu] at hg
    exact hg
  have hpe : partition.partition_end (partition.initialize_replacement NUM_CPUS st) cpu
      = if cpu + 1 < NUM_CPUS then (cpu + 1) * (st.NUM_WAY / NUM_CPUS)
        else st.NUM_WAY := margins_getD NUM_CPUS st (cpu + 1) (by omega)
  have hlt : partition.partition_start (partition.initialize_replacement NUM_CPUS st) cpu
      < partition.partition_end (partition.initialize_replacement NUM_CPUS st) cpu := by
    rw [hps, hpe]
    by_cases hc : cpu + 1 < NUM_CPUS
    · rw [if_pos hc]
      omega
    · rw [if_neg hc]
      have hc2 : cpu + 1 = NUM_CPUS := by omega
      rw [hc2] at hcm
      omega
  have hpew : partition.partition_end (partition.initialize_replacement NUM_CPUS st) cpu
      ≤ st.NUM_WAY := by
    rw [hpe]
    by_cases hc : cpu + 1 < NUM_CPUS
    · rw [if_pos hc]
      omega
    · rw [if_neg hc]
  constructor
  · rcases first_invalid_spec snap
        (partition.partition_end (partition.initialize_replacement NUM_CPUS st) cpu -
          partition.partition_start (partition.initialize_replacement NUM_CPUS st) cpu)
        (partition.partition_start (partition.initialize_replacement NUM_CPUS st) cpu)
        with ⟨hnone, _⟩ | ⟨w, hw, hh1, hh2, hh3, hh4⟩
    · have hlen2 : sidx * (partition.initialize_replacement NUM_CPUS st).NUM_WAY +
          partition.partition_end (partition.initialize_replacement NUM_CPUS st) cpu ≤
          (partition.initialize_replacement NUM_CPUS st).last_used_cycles.length := by
        have hNW : (partition.initialize_replacement NUM_CPUS st).NUM_WAY
            = st.NUM_WAY := rfl
        have hluc : (partition.initialize_replacement NUM_CPUS st).last_used_cycles
            = st.last_used_cycles := rfl
        rw [hNW, hluc]
        omega
      obtain ⟨off, hfv, hofflt, _, _⟩ :=
        find_victim_lru_case (partition.initialize_replacement NUM_CPUS st) cpu sidx
          snap hnone hlt hlen2
      exact ⟨_, hfv, by omega⟩
    · exact ⟨w, find_victim_invalid_case _ cpu sidx snap w hw, by omega⟩
  · rcases first_invalid_spec rsnap NW 0 with ⟨hnone, _⟩ | ⟨w, hw, hh1, hh2, _, _⟩
    · have hfv : random.find_victim NW cpu rsnap draw = draw := by
        simp only [random.find_victim]
        rw [hnone]
      rw [hfv]
      exact hdraw
    · have hfv : random.find_victim NW cpu rsnap draw = w := by
        simp only [random.find_victim]
        rw [hw]
      rw [hfv]
      omega

/-- Closed-input instantiation of `find_victim_in_range`: two CPUs over four
ways (each partition nonempty), and a Random draw of 1 over three ways. -/
theorem find_victim_in_range_witness :
    (∃ v, partition.find_victim
        (partition.initialize_replacement 2 ⟨4, [0, 0, 0, 0], 0, [0, 0, 0]⟩)
        1 0 [] = some v ∧ v < 4) ∧
    random.find_victim 3 1 [⟨true⟩, ⟨true⟩, ⟨true⟩] 1 < 3 :=
  find_victim_in_range 2 ⟨4, [0, 0, 0, 0], 0, [0, 0, 0]⟩ 1 0 [] 3 1
    [⟨true⟩, ⟨true⟩, ⟨true⟩] (by decide) (by decide) (by decide) (by decide) (by decide)

/-- C7: `initialize_replacement` performs no configuration validation.
Called with `NUM_CPUS = MAX_CPUS_FOR_COMPETITION + 1 = 17` — beyond the
fixed competition bound — and with `NUM_WAY = 0` (and with `NUM_WAY = 5`,
which yields sixteen zero-width partitions), it completes normally and
silently installs a margin table instead of reporting a fatal setup
failure; there is no detection anywhere in the source. -/
theorem initialize_accepts_invalid_config :
    partition.initialize_replacement (MAX_CPUS_FOR_COMPETITION + 1)
        ⟨0, [], 0, List.replicate 18 7⟩ = ⟨0, [], 0, List.replicate 18 0⟩ ∧
    partition.initialize_replacement (MAX_CPUS_FOR_COMPETITION + 1)
        ⟨5, [], 0, List.replicate 18 7⟩
      = ⟨5, [], 0, List.replicate 17 0 ++ [5]⟩ := by decide

/-- C8: the Random policy returns the lowest-index invalid way of the whole
set when one exists; otherwise it returns exactly the value drawn from its
policy-local distribution over the whole `[0, NUM_WAY)` — the result never
depends on the requesting CPU id and always lies in `[0, NUM_WAY)`. -/
theorem random_find_victim_spec (NUM_WAY cpu cpu2 : ℕ) (rsnap : List cache_block)
    (draw : ℕ) (hdraw : draw < NUM_WAY) :
    ((∀ w, w < NUM_WAY → (rsnap.getD w ⟨true⟩).valid = true) →
      random.find_victim NUM_WAY cpu rsnap draw = draw) ∧
    (∀ w0, w0 < NUM_WAY → (rsnap.getD w0 ⟨true⟩).valid = false →
      ∃ v, random.find_victim NUM_WAY cpu rsnap draw = v ∧ v < NUM_WAY ∧
        (rsnap.getD v ⟨true⟩).valid = false ∧
        ∀ u, u < v → (rsnap.getD u ⟨true⟩).valid = true) ∧
    random.find_victim NUM_WAY cpu rsnap draw
      = random.find_victim NUM_WAY cpu2 rsnap draw ∧
    random.find_victim NUM_WAY cpu rsnap draw < NUM_WAY := by
  rcases first_invalid_spec rsnap NUM_WAY 0
      with ⟨hnone, hall⟩ | ⟨w, hw, hh1, hh2, hh3, hh4⟩
  · have hfv : random.find_victim NUM_WAY cpu rsnap draw = draw := by
      simp only [random.find_victim]
      rw [hnone]
    have hfv2 : random.find_victim NUM_WAY cpu2 rsnap draw = draw := by
      simp only [random.find_victim]
      rw [hnone]
    refine ⟨fun _ => hfv, ?_, hfv.trans hfv2.symm, by rw [hfv]; exact hdraw⟩
    intro w0 hw0 hval
    have hc := hall w0 (by omega) (by omega)
    rw [hval] at hc
    simp at hc
  · have hfv : random.find_victim NUM_WAY cpu rsnap draw = w := by
      simp only [random.find_victim]
      rw [hw]
    have hfv2 : random.find_victim NUM_WAY cpu2 rsnap draw = w := by
      simp only [random.find_victim]
      rw [hw]
    refine ⟨?_, ?_, hfv.trans hfv2.symm, by rw [hfv]; omega⟩
    · intro hall2
      have hc := hall2 w (by omega)
      rw [hh3] at hc
      simp at hc
    · intro w0 hw0 hval
      exact ⟨w, hfv, by omega, hh3, fun u hu => hh4 u (by omega) hu⟩

/-- Closed-input instantiation of `random_find_victim_spec`: way 1 is the
first invalid way of a two-way set; requesting CPUs 0 and 5 agree. -/
theorem random_find_victim_spec_witness :
    ((∀ w, w < 2 → (([⟨true⟩, ⟨false⟩] : List cache_block).getD w ⟨true⟩).valid = true) →
      random.find_victim 2 0 [⟨true⟩, ⟨false⟩] 1 = 1) ∧
    (∀ w0, w0 < 2 →
      (([⟨true⟩, ⟨false⟩] : List cache_block).getD w0 ⟨true⟩).valid = false →
      ∃ v, random.find_victim 2 0 [⟨true⟩, ⟨false⟩] 1 = v ∧ v < 2 ∧
        (([⟨true⟩, ⟨false⟩] : List cache_block).getD v ⟨true⟩).valid = false ∧
        ∀ u, u < v → (([⟨true⟩, ⟨false⟩] : List cache_block).getD u ⟨true⟩).valid = true) ∧
    random.find_victim 2 0 [⟨true⟩, ⟨false⟩] 1
      = random.find_victim 2 5 [⟨true⟩, ⟨false⟩] 1 ∧
    random.find_victim 2 0 [⟨true⟩, ⟨false⟩] 1 < 2 :=
  random_find_victim_spec 2 0 5 [⟨true⟩, ⟨false⟩] 1 (by decide)

theorem getD_zipWith (f : ℕ → ℕ → ℕ) : ∀ (a b : List ℕ) (i : ℕ),
    i < a.length → i < b.length →
    (List.zipWith f a b).getD i 0 = f (a.getD i 0) (b.getD i 0) := by
  intro a
  induction a with
  | nil => intro b i hi _; simp at hi
  | cons x xs ih =>
    intro b i hi hi2
    cases b with
    | nil => simp at hi2
    | cons y ys =>
      cases i with
      | zero => rfl
      | succ i =>
        simpa using ih ys i (by simpa using hi) (by simpa using hi2)

/-- C9 (the body of `operator-` is spec-modelled, see `cache_stats.sub`):
subtracting two well-formed statistics snapshots yields a snapshot whose
`name` is taken from the left operand and whose every field — the five
prefetch counters, every per-CPU position up to `MAX_CPUS_FOR_COMPETITION`
of every event-counter vector for every access type, and the total
miss-latency — is the elementwise difference `lhs.field - rhs.field`
(`uint64` subtraction for the counters), with the result's vectors again of
full length. -/
theorem stats_sub_elementwise (lhs rhs : cache_stats)
    (hl : lhs.wf) (hr : rhs.wf) :
    (lhs - rhs).name = lhs.name ∧
    (lhs - rhs).pf_requested = sub64 lhs.pf_requested rhs.pf_requested ∧
    (lhs - rhs).pf_issued = sub64 lhs.pf_issued rhs.pf_issued ∧
    (lhs - rhs).pf_useful = sub64 lhs.pf_useful rhs.pf_useful ∧
    (lhs - rhs).pf_useless = sub64 lhs.pf_useless rhs.pf_useless ∧
    (lhs - rhs).pf_fill = sub64 lhs.pf_fill rhs.pf_fill ∧
    (∀ t i, i < MAX_CPUS_FOR_COMPETITION →
      ((lhs - rhs).hits t).getD i 0
        = sub64 ((lhs.hits t).getD i 0) ((rhs.hits t).getD i 0)) ∧
    (∀ t i, i < MAX_CPUS_FOR_COMPETITION →
      ((lhs - rhs).misses t).getD i 0
        = sub64 ((lhs.misses t).getD i 0) ((rhs.misses t).getD i 0)) ∧
    (∀ t i, i < MAX_CPUS_FOR_COMPETITION →
      ((lhs - rhs).mshr_merge t).getD i 0
        = sub64 ((lhs.mshr_merge t).getD i 0) ((rhs.mshr_merge t).getD i 0)) ∧
    (∀ t i, i < MAX_CPUS_FOR_COMPETITION →
      ((lhs - rhs).mshr_return t).getD i 0
        = sub64 ((lhs.mshr_return t).getD i 0) ((rhs.mshr_return t).getD i 0)) ∧
    (∀ t, ((lhs - rhs).hits t).length = MAX_CPUS_FOR_COMPETITION ∧
      ((lhs - rhs).misses t).length = MAX_CPUS_FOR_COMPETITION ∧
      ((lhs - rhs).mshr_merge t).length = MAX_CPUS_FOR_COMPETITION ∧
      ((lhs - rhs).mshr_return t).length = MAX_CPUS_FOR_COMPETITION) ∧
    (lhs - rhs).total_miss_latency_cycles
      = lhs.total_miss_latency_cycles - rhs.total_miss_latency_cycles := by
  obtain ⟨hl1, hl2, hl3, hl4⟩ := hl
  obtain ⟨hr1, hr2, hr3, hr4⟩ := hr
  refine ⟨rfl, rfl, rfl, rfl, rfl, rfl, ?_, ?_, ?_, ?_, ?_, rfl⟩
  · intro t i hi
    exact getD_zipWith sub64 (lhs.hits t) (rhs.hits t) i
      (by rw [hl1 t]; exact hi) (by rw [hr1 t]; exact hi)
  · intro t i hi
    exact getD_zipWith sub64 (lhs.misses t) (rhs.misses t) i
      (by rw [hl2 t]; exact hi) (by rw [hr2 t]; exact hi)
  · intro t i hi
    exact getD_zipWith sub64 (lhs.mshr_merge t) (rhs.mshr_merge t) i
      (by rw [hl3 t]; exact hi) (by rw [hr3 t]; exact hi)
  · intro t i hi
    exact getD_zipWith sub64 (lhs.mshr_return t) (rhs.mshr_return t) i
      (by rw [hl4 t]; exact hi) (by rw [hr4 t]; exact hi)
  · intro t
    refine ⟨?_, ?_, ?_, ?_⟩
    · show (List.zipWith sub64 (lhs.hits t) (rhs.hits t)).length = _
      rw [List.length_zipWith, hl1 t, hr1 t, Nat.min_self]
    · show (List.zipWith sub64 (lhs.misses t) (rhs.misses t)).length = _
      rw [List.length_zipWith, hl2 t, hr2 t, Nat.min_self]
    · show (List.zipWith sub64 (lhs.mshr_merge t) (rhs.mshr_merge t)).length = _
      rw [List.length_zipWith, hl3 t, hr3 t, Nat.min_self]
    · show (List.zipWith sub64 (lhs.mshr_return t) (rhs.mshr_return t)).length = _
      rw [List.length_zipWith, hl4 t, hr4 t, Nat.min_self]

/-- Closed-input instantiation of `stats_sub_elementwise` on the two example
snapshots. -/
theorem stats_sub_elementwise_witness :
    (stats_example_lhs - stats_example_rhs).name = stats_example_lhs.name ∧
    (stats_example_lhs - stats_example_rhs).pf_requested
      = sub64 stats_example_lhs.pf_requested stats_example_rhs.pf_requested ∧
    (stats_example_lhs - stats_example_rhs).pf_issued
      = sub64 stats_example_lhs.pf_issued stats_example_rhs.pf_issued ∧
    (stats_example_lhs - stats_example_rhs).pf_useful
      = sub64 stats_example_lhs.pf_useful stats_example_rhs.pf_useful ∧
    (stats_example_lhs - stats_example_rhs).pf_useless
      = sub64 stats_example_lhs.pf_useless stats_example_rhs.pf_useless ∧
    (stats_example_lhs - stats_example_rhs).pf_fill
      = sub64 stats_example_lhs.pf_fill stats_example_rhs.pf_fill ∧
    (∀ t i, i < MAX_CPUS_FOR_COMPETITION →
      ((stats_example_lhs - stats_example_rhs).hits t).getD i 0
        = sub64 ((stats_example_lhs.hits t).getD i 0)
            ((stats_example_rhs.hits t).getD i 0)) ∧
    (∀ t i, i < MAX_CPUS_FOR_COMPETITION →
      ((stats_example_lhs - stats_example_rhs).misses t).getD i 0
        = sub64 ((stats_example_lhs.misses t).getD i 0)
            ((stats_example_rhs.misses t).getD i 0)) ∧
    (∀ t i, i < MAX_CPUS_FOR_COMPETITION →
      ((stats_example_lhs - stats_example_rhs).mshr_merge t).getD i 0
        = sub64 ((stats_example_lhs.mshr_merge t).getD i 0)
            ((stats_example_rhs.mshr_merge t).getD i 0)) ∧
    (∀ t i, i < MAX_CPUS_FOR_COMPETITION →
      ((stats_example_lhs - stats_example_rhs).mshr_return t).getD i 0
        = sub64 ((stats_example_lhs.mshr_return t).getD i 0)
            ((stats_example_rhs.mshr_return t).getD i 0)) ∧
    (∀ t, ((stats_example_lhs - stats_example_rhs).hits t).length
        = MAX_CPUS_FOR_COMPETITION ∧
      ((stats_example_lhs - stats_example_rhs).misses t).length
        = MAX_CPUS_FOR_COMPETITION ∧
      ((stats_example_lhs - stats_example_rhs).mshr_merge t).length
        = MAX_CPUS_FOR_COMPETITION ∧
      ((stats_example_lhs - stats_example_rhs).mshr_return t).length
        = MAX_CPUS_FOR_COMPETITION) ∧
    (stats_example_lhs - stats_example_rhs).total_miss_latency_cycles
      = stats_example_lhs.total_miss_latency_cycles
        - stats_example_rhs.total_miss_latency_cycles :=
  stats_sub_elementwise stats_example_lhs stats_example_rhs
    ⟨fun _ => rfl, fun _ => rfl, fun _ => rfl, fun _ => rfl⟩
    ⟨fun _ => rfl, fun _ => rfl, fun _ => rfl, fun _ => rfl⟩

/-- C10: with a single CPU, `initialize_replacement` makes CPU 0's partition
the whole set `[0, NUM_WAY)`, and `find_victim` computes exactly the
spec-side whole-set LRU-with-invalid-priority function: lowest-index invalid
way if any, else the lowest-index way of minimal recency stamp. -/
theorem single_cpu_refines_whole_set_lru (st : partition.State) (sidx : ℕ)
    (snap : List cache_block)
    (hlen : sidx * st.NUM_WAY + st.NUM_WAY ≤ st.last_used_cycles.length) :
    partition.find_victim (partition.initialize_replacement 1 st) 0 sidx snap
      = lru_with_invalid_priority st sidx snap := by
  have hps : partition.partition_start (partition.initialize_replacement 1 st) 0
      = 0 := by
    have hg := margins_getD 1 st 0 (by omega)
    rw [if_pos (by omega)] at hg
    show (partition.initialize_replacement 1 st).partition_left_margins.getD 0 0 = 0
    rw [hg, Nat.zero_mul]
  have hpe : partition.partition_end (partition.initialize_replacement 1 st) 0
      = st.NUM_WAY := by
    have hg := margins_getD 1 st 1 (le_refl 1)
    rw [if_neg (by omega)] at hg
    exact hg
  have hstamp : ∀ w, partition.stamp (partition.initialize_replacement 1 st) sidx w
      = partition.stamp st sidx w := fun _ => rfl
  by_cases hinv : ∃ w, w < st.NUM_WAY ∧ (snap.getD w ⟨true⟩).valid = false
  · have hws := Nat.find_spec hinv
    have hlhs : partition.find_victim (partition.initialize_replacement 1 st) 0 sidx snap
        = some (Nat.find hinv) := by
      apply find_victim_least_invalid
      · rw [hps]
        omega
      · rw [hpe]
        exact hws.1
      · exact hws.2
      · intro u hu1 hu2
        have hmin := Nat.find_min hinv hu2
        cases hval : (snap.getD u ⟨true⟩).valid with
        | true => rfl
        | false =>
          have hw1 := hws.1
          exact absurd ⟨by omega, hval⟩ hmin
    rw [hlhs]
    simp only [lru_with_invalid_priority]
    rw [dif_pos hinv]
  · have hall : ∀ w, w < st.NUM_WAY → (snap.getD w ⟨true⟩).valid = true := by
      intro w hw
      cases hval : (snap.getD w ⟨true⟩).valid with
      | true => rfl
      | false => exact absurd ⟨w, hw, hval⟩ hinv
    have hnone : first_invalid snap
        (partition.partition_start (partition.initialize_replacement 1 st) 0)
        (partition.partition_end (partition.initialize_replacement 1 st) 0 -
          partition.partition_start (partition.initialize_replacement 1 st) 0)
        = none := by
      rcases first_invalid_spec snap
          (partition.partition_end (partition.initialize_replacement 1 st) 0 -
            partition.partition_start (partition.initialize_replacement 1 st) 0)
          (partition.partition_start (partition.initialize_replacement 1 st) 0)
          with ⟨hn, _⟩ | ⟨w, hw, hh1, hh2, hh3, _⟩
      · exact hn
      · rw [hps] at hh1 hh2
        rw [hpe] at hh2
        have hc := hall w (by omega)
        rw [hh3] at hc
        simp at hc
    simp only [lru_with_invalid_priority]
    rw [dif_neg hinv]
    by_cases hW : 0 < st.NUM_WAY
    · rw [dif_pos hW]
      have hlt : partition.partition_start (partition.initialize_replacement 1 st) 0
          < partition.partition_end (partition.initialize_replacement 1 st) 0 := by
        rw [hps, hpe]
        omega
      have hlen2 : sidx * (partition.initialize_replacement 1 st).NUM_WAY +
          partition.partition_end (partition.initialize_replacement 1 st) 0 ≤
          (partition.initialize_replacement 1 st).last_used_cycles.length := by
        have hNW : (partition.initialize_replacement 1 st).NUM_WAY = st.NUM_WAY := rfl
        have hluc : (partition.initialize_replacement 1 st).last_used_cycles
            = st.last_used_cycles := rfl
        rw [hNW, hluc, hpe]
        exact hlen
      obtain ⟨off, hfv, hofflt, hmin, htie⟩ :=
        find_victim_lru_case (partition.initialize_replacement 1 st) 0 sidx snap
          hnone hlt hlen2
      rw [hps] at hfv hofflt hmin htie
      rw [hpe] at hofflt hmin
      simp only [Nat.zero_add, Nat.sub_zero] at hfv hofflt hmin htie
      simp only [hstamp] at hmin htie
      rw [hfv]
      symm
      rw [Option.some_inj, Nat.find_eq_iff]
      refine ⟨⟨hofflt, fun u hu => hmin u hu⟩, ?_⟩
      intro n hn hP
      have h1 := hP.2 off hofflt
      have h2 := htie n hn
      omega
    · rw [dif_neg hW]
      apply find_victim_empty_case
      rw [hps, hpe]
      omega

/-- Closed-input instantiation of `single_cpu_refines_whole_set_lru`: one
CPU, three ways all valid with stamps `[5, 2, 9]`; both sides select way 1. -/
theorem single_cpu_refines_whole_set_lru_witness :
    partition.find_victim
        (partition.initialize_replacement 1 ⟨3, [5, 2, 9], 10, [7, 7]⟩) 0 0
        [⟨true⟩, ⟨true⟩, ⟨true⟩]
      = lru_with_invalid_priority ⟨3, [5, 2, 9], 10, [7, 7]⟩ 0
        [⟨true⟩, ⟨true⟩, ⟨true⟩] :=
  single_cpu_refines_whole_set_lru ⟨3, [5, 2, 9], 10, [7, 7]⟩ 0
    [⟨true⟩, ⟨true⟩, ⟨true⟩] (by decide)
